import Mathlib

/-!
Verification of the agent tool-execution core (Rust sources under src/rust/src).

Strings are modelled as `List Char` (Rust `&str` / `String`; byte indices
become character indices, which preserves occurrence structure since UTF-8 is
self-synchronizing).  Byte buffers are modelled as `List Nat` with values
below 256.  Each definition is a shallow embedding of the correspondingly
named Rust function; definitions carrying a different name are helpers that
mirror an inlined expression of the source.
-/

set_option maxHeartbeats 1000000

namespace Agent

/-! ### Substring matching primitives

Model of `str::contains` / `str::find` / `str::rfind` used by
`try_exact_replace` (src/rust/src/tool/edit.rs).  `matchAt c o i` says the
pattern `o` occurs in `c` starting at position `i`. -/

/-- Pattern `o` occurs in `c` at position `i`. -/
def matchAt (c o : List Char) (i : Nat) : Bool :=
  (c.drop i).take o.length == o

/-- All occurrence positions of `o` in `c`, in increasing order. -/
def occs (c o : List Char) : List Nat :=
  (List.range (c.length + 1)).filter (fun i => matchAt c o i)

/-- Model of Rust `content.find(old)`: position of the first occurrence. -/
def findSub (c o : List Char) : Option Nat :=
  (occs c o).head?

/-- Model of Rust `content.rfind(old)`: position of the last occurrence. -/
def rfindSub (c o : List Char) : Option Nat :=
  (occs c o).getLast?

/-- Model of Rust `content.contains(old)`. -/
def containsSub (c o : List Char) : Bool :=
  !(occs c o).isEmpty

/-! ### Replacement primitives

`replaceAllSub` models Rust `str::replace` (replace every non-overlapping
occurrence, scanning left to right); `replaceFirstSub` models
`str::replacen(pat, to, 1)` (replace the leftmost occurrence only).
`replaceAllGo` carries explicit fuel so the recursion is structural; fuel
`c.length` is always sufficient for a non-empty pattern because every
replacement step consumes at least one character. -/

/-- Fuel-indexed worker for `replaceAllSub`. -/
def replaceAllGo (o n : List Char) : Nat → List Char → List Char
  | _, [] => []
  | 0, c => c
  | f + 1, a :: t =>
    if (a :: t).take o.length = o then n ++ replaceAllGo o n f ((a :: t).drop o.length)
    else a :: replaceAllGo o n f t

/-- Model of Rust `c.replace(o, n)`.  For the empty pattern Rust inserts `n`
at every character boundary; that case is written out directly (the edit
engine never calls this with an empty pattern). -/
def replaceAllSub (c o n : List Char) : List Char :=
  if o = [] then n ++ (c.map (fun a => a :: n)).flatten
  else replaceAllGo o n c.length c

/-- Model of Rust `c.replacen(o, n, 1)`: replace the leftmost occurrence. -/
def replaceFirstSub : List Char → List Char → List Char → List Char
  | [], o, n => if o = [] then n else []
  | a :: t, o, n =>
    if (a :: t).take o.length = o then n ++ (a :: t).drop o.length
    else a :: replaceFirstSub t o n

/-! ### Line splitting and whitespace, models of `str::lines`, `str::trim`
and `str::split_whitespace`. -/

/-- Split at every newline character; a list of `k` newlines yields `k + 1`
pieces (the `'\n'` terminators are dropped). -/
def splitNl : List Char → List (List Char)
  | [] => [[]]
  | a :: t =>
    if a = '\n' then [] :: splitNl t
    else
      match splitNl t with
      | [] => [[a]]
      | h :: r => (a :: h) :: r

/-- Strip one trailing carriage return. -/
def stripCr (l : List Char) : List Char :=
  if l.getLast? = some '\r' then l.dropLast else l

/-- Model of Rust `str::lines()`: pieces end at `'\n'` (a preceding `'\r'`
is stripped); a final unterminated piece keeps a trailing `'\r'`, and a
trailing empty piece is not produced. -/
def rustLines (s : List Char) : List (List Char) :=
  let parts := splitNl s
  parts.dropLast.map stripCr ++
    (match parts.getLast? with
     | some l => if l = [] then [] else [l]
     | none => [])

/-- The Unicode White_Space code points, the set recognised by Rust
`char::is_whitespace`. -/
def rustIsWhitespace (c : Char) : Bool :=
  (9 ≤ c.toNat && c.toNat ≤ 13) || c.toNat == 32 || c.toNat == 133 ||
    c.toNat == 160 || c.toNat == 0x1680 ||
    (0x2000 ≤ c.toNat && c.toNat ≤ 0x200A) || c.toNat == 0x2028 ||
    c.toNat == 0x2029 || c.toNat == 0x202F || c.toNat == 0x205F ||
    c.toNat == 0x3000

/-- Model of Rust `str::trim`. -/
def rustTrim (l : List Char) : List Char :=
  ((l.dropWhile rustIsWhitespace).reverse.dropWhile rustIsWhitespace).reverse

/-- Model of Rust `str::split_whitespace`: maximal runs of non-whitespace. -/
def splitWs : List Char → List (List Char)
  | [] => []
  | a :: t =>
    let r := splitWs t
    if rustIsWhitespace a then r
    else
      match t with
      | [] => [[a]]
      | b :: _ =>
        if rustIsWhitespace b then [a] :: r
        else
          match r with
          | [] => [[a]]
          | w :: ws => (a :: w) :: ws

/-- Model of the source's `normalize_whitespace` closure
(src/rust/src/tool/edit.rs, inside `try_whitespace_normalized_replace`):
`s.split_whitespace().collect::<Vec<_>>().join(" ")`. -/
def normalizeWhitespace (s : List Char) : List Char :=
  List.intercalate [' '] (splitWs s)

/-! ### The edit engine (src/rust/src/tool/edit.rs) -/

/-- Model of `normalize_line_endings` (edit.rs:173):
`text.replace("\r\n", "\n")`. -/
def normalize_line_endings (text : List Char) : List Char :=
  replaceAllSub text ['\r', '\n'] ['\n']

/-- The replacement loop shared by the three line-based strategies:
`for matched in ms { result = result.replacen(&matched, new, 1); if
!replace_all { break; } }`. -/
def loopReplacen (new : List Char) (replaceAll : Bool) : List Char → List (List Char) → List Char
  | result, [] => result
  | result, m :: rest =>
    let r := replaceFirstSub result m new
    if replaceAll then loopReplacen new replaceAll r rest else r

/-- Model of `try_exact_replace` (edit.rs:238). -/
def try_exact_replace (content old new : List Char) (replace_all : Bool) :
    Option (List Char) :=
  if !containsSub content old then none
  else if replace_all then some (replaceAllSub content old new)
  else
    match findSub content old, rfindSub content old with
    | some first_idx, some last_idx =>
      if first_idx ≠ last_idx then none
      else some (content.take first_idx ++ new ++ content.drop (first_idx + old.length))
    | _, _ => none

/-- The window matches collected by `try_line_trimmed_replace`: pairs of a
start line index and the original (untrimmed) joined window. -/
def lineTrimmedMatches (content old : List Char) : List (Nat × List Char) :=
  let content_lines := rustLines content
  let search_lines := rustLines old
  (List.range (content_lines.length - search_lines.length + 1)).filterMap
    (fun i =>
      if (List.range search_lines.length).all
          (fun j => (content_lines.get? (i + j)).map rustTrim ==
            some (rustTrim (search_lines.getD j []))) then
        some (i, List.intercalate ['\n'] ((content_lines.drop i).take search_lines.length))
      else none)

/-- Model of `try_line_trimmed_replace` (edit.rs:265). -/
def try_line_trimmed_replace (content old new : List Char) (replace_all : Bool) :
    Option (List Char) :=
  let search_lines := rustLines old
  if search_lines.isEmpty then none
  else
    let ms := lineTrimmedMatches content old
    if ms.isEmpty then none
    else if !replace_all ∧ 1 < ms.length then none
    else some (loopReplacen new replace_all content (ms.map Prod.snd).reverse)

/-- The single-line matches collected by `try_whitespace_normalized_replace`. -/
def wsNormalizedMatches (content old : List Char) : List (List Char) :=
  (rustLines content).filter
    (fun line => normalizeWhitespace line == normalizeWhitespace old)

/-- Model of `try_whitespace_normalized_replace` (edit.rs:318). -/
def try_whitespace_normalized_replace (content old new : List Char)
    (replace_all : Bool) : Option (List Char) :=
  let ms := wsNormalizedMatches content old
  if ms.isEmpty then none
  else if !replace_all ∧ 1 < ms.length then none
  else some (loopReplacen new replace_all content ms)

/-- The block matches collected by `try_block_anchor_replace`: for every
content line equal (after trimming) to the first search line, scan forward
from two lines below for the nearest line equal (after trimming) to the last
search line, and join the enclosed block. -/
def blockAnchorMatches (content old : List Char) : List (List Char) :=
  let content_lines := rustLines content
  let search_lines := rustLines old
  let first_line := rustTrim (search_lines.headD [])
  let last_line := rustTrim ((search_lines.getLast?).getD [])
  (List.range content_lines.length).filterMap
    (fun i =>
      if rustTrim (content_lines.getD i []) = first_line then
        match (List.range' (i + 2) (content_lines.length - (i + 2))).find?
            (fun j => rustTrim (content_lines.getD j []) == last_line) with
        | some j =>
          some (List.intercalate ['\n'] ((content_lines.drop i).take (j - i + 1)))
        | none => none
      else none)

/-- Model of `try_block_anchor_replace` (edit.rs:360). -/
def try_block_anchor_replace (content old new : List Char) (replace_all : Bool) :
    Option (List Char) :=
  let search_lines := rustLines old
  if search_lines.length < 3 then none
  else
    let ms := blockAnchorMatches content old
    if ms.isEmpty then none
    else if !replace_all ∧ 1 < ms.length then none
    else some (loopReplacen new replace_all content ms)

/-- Model of `replace` (edit.rs:208): the four-strategy fallback cascade. -/
def replace (content old_string new_string : List Char) (replace_all : Bool) :
    Except (List Char) (List Char) :=
  match try_exact_replace content old_string new_string replace_all with
  | some result => Except.ok result
  | none =>
    match try_line_trimmed_replace content old_string new_string replace_all with
    | some result => Except.ok result
    | none =>
      match try_whitespace_normalized_replace content old_string new_string replace_all with
      | some result => Except.ok result
      | none =>
        match try_block_anchor_replace content old_string new_string replace_all with
        | some result => Except.ok result
        | none => Except.error ("oldString not found in content".toList)

/-! ### Basic facts about occurrence positions -/

lemma matchAt_true_lt {C O : List Char} {i : Nat} (hO : O ≠ []) (h : matchAt C O i = true) :
    i < C.length := by
  by_contra hc
  push_neg at hc
  have hd : C.drop i = [] := List.drop_eq_nil_of_le hc
  rw [matchAt, hd] at h
  simp only [List.take_nil, beq_iff_eq] at h
  exact hO h.symm

lemma matchAt_ge_false {C O : List Char} (hO : O ≠ []) {i : Nat} (h : C.length ≤ i) :
    matchAt C O i = false := by
  cases hm : matchAt C O i
  · rfl
  · exact absurd (matchAt_true_lt hO hm) (by omega)

lemma matchAt_cons {a : Char} {C O : List Char} {i : Nat} :
    matchAt (a :: C) O (i + 1) = matchAt C O i := by
  simp [matchAt]

lemma mem_occs {C O : List Char} {i : Nat} (hO : O ≠ []) :
    i ∈ occs C O ↔ matchAt C O i = true := by
  unfold occs
  simp only [List.mem_filter, List.mem_range]
  constructor
  · exact fun h => h.2
  · exact fun h => ⟨by have := matchAt_true_lt hO h; omega, h⟩

lemma occs_pairwise (C O : List Char) : (occs C O).Pairwise (· < ·) :=
  (List.pairwise_lt_range _).filter _

lemma head?_le_of_pairwise {l : List Nat} (hp : l.Pairwise (· < ·)) {a h : Nat}
    (hh : l.head? = some h) (ha : a ∈ l) : h ≤ a := by
  cases l with
  | nil => cases ha
  | cons x t =>
    rw [List.head?_cons, Option.some.injEq] at hh
    subst hh
    rcases List.mem_cons.mp ha with rfl | hmem
    · exact le_refl _
    · exact le_of_lt ((List.pairwise_cons.mp hp).1 a hmem)

lemma le_getLast?_of_pairwise {l : List Nat} (hp : l.Pairwise (· < ·)) {a g : Nat}
    (hg : l.getLast? = some g) (ha : a ∈ l) : a ≤ g := by
  induction l with
  | nil => cases ha
  | cons x t ih =>
    cases t with
    | nil =>
      simp only [List.getLast?_singleton, Option.some.injEq] at hg
      simp only [List.mem_singleton] at ha
      omega
    | cons y u =>
      rw [List.getLast?_cons_cons] at hg
      have hgmem : g ∈ y :: u := by
        have hne : (y :: u) ≠ [] := List.cons_ne_nil _ _
        rw [List.getLast?_eq_getLast _ hne, Option.some.injEq] at hg
        rw [← hg]
        exact List.getLast_mem hne
      rcases List.mem_cons.mp ha with rfl | hmem
      · exact le_of_lt ((List.pairwise_cons.mp hp).1 g hgmem)
      · exact ih (List.pairwise_cons.mp hp).2 hg hmem

lemma occs_ne_nil_of_matchAt {C O : List Char} {j : Nat} (hO : O ≠ [])
    (h : matchAt C O j = true) : occs C O ≠ [] :=
  List.ne_nil_of_mem ((mem_occs hO).mpr h)

lemma containsSub_eq_true {C O : List Char} {j : Nat} (hO : O ≠ [])
    (h : matchAt C O j = true) : containsSub C O = true := by
  unfold containsSub
  have := occs_ne_nil_of_matchAt hO h
  simp [List.isEmpty_iff, this]

lemma occs_eq_singleton {C O : List Char} {i : Nat} (hO : O ≠ [])
    (hi : matchAt C O i = true) (huniq : ∀ j, matchAt C O j = true → j = i) :
    occs C O = [i] := by
  have hmem : i ∈ occs C O := (mem_occs hO).mpr hi
  have hall : ∀ x ∈ occs C O, x = i := fun x hx => huniq x ((mem_occs hO).mp hx)
  have hp := occs_pairwise C O
  cases hl : occs C O with
  | nil => rw [hl] at hmem; cases hmem
  | cons x t =>
    rw [hl] at hmem hall hp
    have hx : x = i := hall x (List.mem_cons_self _ _)
    cases t with
    | nil => rw [hx]
    | cons y u =>
      have hy : y = i := hall y (by simp)
      have hlt : x < y := (List.pairwise_cons.mp hp).1 y (by simp)
      omega

/-! ### The exact strategy on unique and on multiple occurrences -/

lemma try_exact_unique {C O N : List Char} {i : Nat} (hO : O ≠ [])
    (hi : matchAt C O i = true) (huniq : ∀ j, matchAt C O j = true → j = i) :
    try_exact_replace C O N false = some (C.take i ++ N ++ C.drop (i + O.length)) := by
  have hocc := occs_eq_singleton hO hi huniq
  unfold try_exact_replace containsSub findSub rfindSub
  rw [hocc]
  simp

lemma try_exact_multi {C O N : List Char} {i j : Nat} (hO : O ≠ [])
    (hi : matchAt C O i = true) (hj : matchAt C O j = true) (hij : i ≠ j) :
    try_exact_replace C O N false = none := by
  have hmi : i ∈ occs C O := (mem_occs hO).mpr hi
  have hmj : j ∈ occs C O := (mem_occs hO).mpr hj
  have hp := occs_pairwise C O
  obtain ⟨f, hf⟩ : ∃ f, (occs C O).head? = some f := by
    cases hcs : (occs C O).head? with
    | none =>
      rw [List.head?_eq_none_iff] at hcs
      rw [hcs] at hmi
      cases hmi
    | some f => exact ⟨f, rfl⟩
  obtain ⟨g, hg⟩ : ∃ g, (occs C O).getLast? = some g := by
    cases hcs : (occs C O).getLast? with
    | none =>
      rw [List.getLast?_eq_none_iff] at hcs
      rw [hcs] at hmi
      cases hmi
    | some g => exact ⟨g, rfl⟩
  have h1 := head?_le_of_pairwise hp hf hmi
  have h2 := head?_le_of_pairwise hp hf hmj
  have h3 := le_getLast?_of_pairwise hp hg hmi
  have h4 := le_getLast?_of_pairwise hp hg hmj
  have hfg : f ≠ g := by omega
  unfold try_exact_replace findSub rfindSub
  rw [containsSub_eq_true hO hi, hf, hg]
  simp [hfg]

/-! ### Greedy left-to-right decomposition, the specification of
`str::replace`: `GreedyDecomp O N C R` holds when `C` splits into segments
and occurrences of `O` such that each listed occurrence is the leftmost one
in the remaining text, and `R` is `C` with each such occurrence replaced by
`N`. -/

inductive GreedyDecomp (O N : List Char) : List Char → List Char → Prop
  | nil (C : List Char) :
      (∀ i, i < C.length → matchAt C O i = false) → GreedyDecomp O N C C
  | cons (A B R : List Char) :
      (∀ i, i < A.length → matchAt (A ++ O ++ B) O i = false) →
      GreedyDecomp O N B R →
      GreedyDecomp O N (A ++ O ++ B) (A ++ N ++ R)

lemma replaceAllGo_congr {o n : List Char} (ho : o ≠ []) :
    ∀ (f g : Nat) (c : List Char), c.length ≤ f → c.length ≤ g →
      replaceAllGo o n f c = replaceAllGo o n g c := by
  intro f
  induction f with
  | zero =>
    intro g c hf _
    have : c = [] := List.length_eq_zero.mp (by omega)
    subst this
    cases g <;> rfl
  | succ f ih =>
    intro g c hf hg
    cases c with
    | nil => cases g <;> rfl
    | cons a t =>
      have hol : 1 ≤ o.length := by
        cases o with
        | nil => exact absurd rfl ho
        | cons x y => simp
      simp only [List.length_cons] at hf hg
      cases g with
      | zero => omega
      | succ g =>
        simp only [replaceAllGo]
        by_cases hcond : (a :: t).take o.length = o
        · rw [if_pos hcond, if_pos hcond]
          have hlen : ((a :: t).drop o.length).length ≤ t.length := by
            simp only [List.length_drop, List.length_cons]
            omega
          exact congrArg (n ++ ·) (ih g _ (by omega) (by omega))
        · rw [if_neg hcond, if_neg hcond]
          exact congrArg (a :: ·) (ih g t (by omega) (by omega))

lemma replaceAllGo_id {o n : List Char} :
    ∀ (f : Nat) (c : List Char), (∀ i, matchAt c o i = false) →
      replaceAllGo o n f c = c := by
  intro f
  induction f with
  | zero => intro c _; cases c <;> rfl
  | succ f ih =>
    intro c hc
    cases c with
    | nil => rfl
    | cons a t =>
      have h0 := hc 0
      rw [matchAt] at h0
      simp only [List.drop_zero] at h0
      have hcond : ¬((a :: t).take o.length = o) := by
        intro hEq
        rw [hEq] at h0
        simp at h0
      simp only [replaceAllGo, if_neg hcond]
      rw [ih t (fun i => by rw [← matchAt_cons (a := a)]; exact hc (i + 1))]

lemma replaceAllSub_nomatch {O N C : List Char} (hO : O ≠ [])
    (h : ∀ i, i < C.length → matchAt C O i = false) : replaceAllSub C O N = C := by
  unfold replaceAllSub
  rw [if_neg hO]
  apply replaceAllGo_id
  intro i
  by_cases hi : i < C.length
  · exact h i hi
  · exact matchAt_ge_false hO (by omega)

lemma replaceAllGo_append {O N : List Char} (hO : O ≠ []) :
    ∀ (A : List Char) (B : List Char) (f : Nat), (A ++ O ++ B).length ≤ f →
      (∀ i, i < A.length → matchAt (A ++ O ++ B) O i = false) →
      replaceAllGo O N f (A ++ O ++ B) = A ++ N ++ replaceAllSub B O N := by
  intro A
  induction A with
  | nil =>
    intro B f hf _
    simp only [List.nil_append] at hf ⊢
    cases O with
    | nil => exact absurd rfl hO
    | cons o0 ot =>
      cases f with
      | zero => simp at hf
      | succ f =>
        have hco : (o0 :: ot) ++ B = o0 :: (ot ++ B) := List.cons_append _ _ _
        rw [hco]
        have htake : (o0 :: (ot ++ B)).take (o0 :: ot).length = o0 :: ot := by
          rw [← hco]
          exact List.take_left _ _
        have hdrop : (o0 :: (ot ++ B)).drop (o0 :: ot).length = B := by
          rw [← hco]
          exact List.drop_left _ _
        simp only [replaceAllGo, if_pos htake, hdrop]
        conv_rhs => rw [replaceAllSub]
        rw [if_neg hO]
        have hlb : B.length ≤ f := by
          simp only [List.length_append, List.length_cons] at hf
          omega
        rw [replaceAllGo_congr hO f B.length B hlb (le_refl _)]
  | cons a A ih =>
    intro B f hf hno
    simp only [List.cons_append] at hf hno ⊢
    simp only [List.length_cons] at hf hno
    cases f with
    | zero => omega
    | succ f =>
      have h0 := hno 0 (by omega)
      rw [matchAt] at h0
      simp only [List.drop_zero] at h0
      have hcond : ¬((a :: (A ++ O ++ B)).take O.length = O) := by
        intro hEq
        rw [hEq] at h0
        simp at h0
      simp only [replaceAllGo, if_neg hcond]
      rw [ih B f (by omega)
        (fun i hi => by
          rw [← matchAt_cons (a := a)]
          exact hno (i + 1) (by omega))]

lemma replaceAllSub_append {O N : List Char} (hO : O ≠ []) (A B : List Char)
    (h : ∀ i, i < A.length → matchAt (A ++ O ++ B) O i = false) :
    replaceAllSub (A ++ O ++ B) O N = A ++ N ++ replaceAllSub B O N := by
  have h2 := replaceAllGo_append (N := N) hO A B (A ++ O ++ B).length (le_refl _) h
  conv_lhs => rw [replaceAllSub]
  rw [if_neg hO]
  exact h2

lemma replaceAllSub_of_decomp {O N C R : List Char} (hO : O ≠ [])
    (h : GreedyDecomp O N C R) : replaceAllSub C O N = R := by
  induction h with
  | nil C hno => exact replaceAllSub_nomatch hO hno
  | cons A B R hno _ ih => rw [replaceAllSub_append hO A B hno, ih]

/-! ### Claims C1 and C2 -/

/-- C1: the claim states that when a strategy finds two or more candidates
under `replace_all = false` the whole operation fails as ambiguous and no
later strategy can turn it into a success.  The code diverges: on content
`"a\n a x"` the pattern `"a"` occurs at the two non-overlapping positions 0
and 3, the exact strategy steps aside (`None`), and the line-trimmed
strategy then succeeds, so the operation returns a replacement instead of
failing. -/
theorem C1_fallthrough_on_ambiguity :
    ("a".toList ≠ ([] : List Char)) ∧
    matchAt "a\n a x".toList "a".toList 0 = true ∧
    matchAt "a\n a x".toList "a".toList 3 = true ∧
    try_exact_replace "a\n a x".toList "a".toList "b".toList false = none ∧
    replace "a\n a x".toList "a".toList "b".toList false =
      Except.ok "b\n a x".toList :=
  ⟨by decide, by decide, by decide, by decide, by rfl⟩

/-- C2: for a non-empty `old` occurring exactly once in the content,
`replace` with `replace_all = false` substitutes that single occurrence and
the exact strategy alone decides it; with `replace_all = true` every
occurrence of the greedy left-to-right decomposition is substituted. -/
theorem C2_exact_and_replace_all (C O N R : List Char) (i : Nat) (hO : O ≠ []) :
    ((matchAt C O i = true) → (∀ j, matchAt C O j = true → j = i) →
      try_exact_replace C O N false = some (C.take i ++ N ++ C.drop (i + O.length)) ∧
      replace C O N false = Except.ok (C.take i ++ N ++ C.drop (i + O.length))) ∧
    (GreedyDecomp O N C R → (∃ j, matchAt C O j = true) →
      replace C O N true = Except.ok R) := by
  constructor
  · intro hi huniq
    have he := try_exact_unique (N := N) hO hi huniq
    refine ⟨he, ?_⟩
    unfold replace
    rw [he]
  · rintro hd ⟨j, hj⟩
    have hc : try_exact_replace C O N true = some (replaceAllSub C O N) := by
      unfold try_exact_replace
      rw [containsSub_eq_true hO hj]
      simp
    unfold replace
    rw [hc, replaceAllSub_of_decomp hO hd]

/-- Witness for C2 at the spec's concrete scenarios. -/
theorem C2_exact_and_replace_all_witness :
    replace "hello world".toList "world".toList "rust".toList false =
      Except.ok "hello rust".toList ∧
    replace "foo bar foo baz foo".toList "foo".toList "qux".toList true =
      Except.ok "qux bar qux baz qux".toList := by
  constructor
  · have h := (C2_exact_and_replace_all "hello world".toList "world".toList
      "rust".toList [] 6 (by decide)).1 (by decide)
      (fun j hj => by
        have hlt : j < 11 := by simpa using matchAt_true_lt (by decide) hj
        interval_cases j <;> revert hj <;> decide)
    rw [h.2]
    rfl
  · have g0 : GreedyDecomp "foo".toList "qux".toList [] [] :=
      .nil [] (by intro i hi; simp at hi)
    have g1 : GreedyDecomp "foo".toList "qux".toList " baz foo".toList
        " baz qux".toList := by
      have h1 := GreedyDecomp.cons (O := "foo".toList) (N := "qux".toList)
        " baz ".toList [] [] (by decide) g0
      exact h1
    have g2 : GreedyDecomp "foo".toList "qux".toList " bar foo baz foo".toList
        " bar qux baz qux".toList := by
      have h2 := GreedyDecomp.cons (O := "foo".toList) (N := "qux".toList)
        " bar ".toList " baz foo".toList " baz qux".toList (by decide) g1
      exact h2
    have g3 : GreedyDecomp "foo".toList "qux".toList "foo bar foo baz foo".toList
        "qux bar qux baz qux".toList := by
      have h3 := GreedyDecomp.cons (O := "foo".toList) (N := "qux".toList)
        [] " bar foo baz foo".toList " bar qux baz qux".toList (by decide) g2
      exact h3
    have h := (C2_exact_and_replace_all "foo bar foo baz foo".toList "foo".toList
      "qux".toList "qux bar qux baz qux".toList 0 (by decide)).2 g3 ⟨0, by decide⟩
    rw [h]

/-! ### Claim C3: CRLF normalization -/

lemma replaceAllGo_crlf_head {f : Nat} {t : List Char}
    (h : (replaceAllGo ['\r', '\n'] ['\n'] f t).head? = some '\n') :
    t.head? = some '\n' ∨ t.take 2 = ['\r', '\n'] := by
  cases t with
  | nil => cases f <;> simp [replaceAllGo] at h
  | cons a t2 =>
    cases f with
    | zero =>
      left
      simpa [replaceAllGo] using h
    | succ f =>
      by_cases hc : (a :: t2).take (['\r', '\n'] : List Char).length = ['\r', '\n']
      · right
        simpa using hc
      · left
        simp only [replaceAllGo, if_neg hc] at h
        simpa using h

lemma norm_go_no_crlf :
    ∀ (f : Nat) (s : List Char), s.length ≤ f →
      (∀ i, matchAt s ['\r', '\r', '\n'] i = false) →
      ∀ i, matchAt (replaceAllGo ['\r', '\n'] ['\n'] f s) ['\r', '\n'] i = false := by
  intro f
  induction f with
  | zero =>
    intro s hs _ i
    have hnil : s = [] := List.length_eq_zero.mp (by omega)
    subst hnil
    exact matchAt_ge_false (by decide) (by simp [replaceAllGo])
  | succ f ih =>
    intro s hs hno i
    cases s with
    | nil => exact matchAt_ge_false (by decide) (by simp [replaceAllGo])
    | cons a t
    =>
    simp only [List.length_cons] at hs
    by_cases hc : (a :: t).take (['\r', '\n'] : List Char).length = ['\r', '\n']
    · have hc2 := hc
      cases t with
      | nil => simp at hc2
      | cons b t2 =>
        simp at hc2
        obtain ⟨rfl, rfl⟩ := hc2
        simp only [replaceAllGo, if_pos hc]
        have hdrop : (('\r' : Char) :: '\n' :: t2).drop
            (['\r', '\n'] : List Char).length = t2 := by simp
        rw [hdrop]
        simp only [List.singleton_append]
        cases i with
        | zero =>
          rw [matchAt]
          simp only [List.drop_zero]
          cases hrec : replaceAllGo ['\r', '\n'] ['\n'] f t2 with
          | nil => decide
          | cons x xs => simp
        | succ i =>
          rw [matchAt_cons]
          refine ih t2 (by simp only [List.length_cons] at hs; omega) ?_ i
          intro k
          have hsh := hno (k + 2)
          rwa [matchAt_cons, matchAt_cons] at hsh
    · simp only [replaceAllGo, if_neg hc]
      cases i with
      | zero =>
        rw [matchAt]
        simp only [List.drop_zero]
        by_cases ha : a = '\r'
        · subst ha
          cases hrec : replaceAllGo ['\r', '\n'] ['\n'] f t with
          | nil => decide
          | cons y ys =>
            by_cases hy : y = '\n'
            · exfalso
              subst hy
              have hh : (replaceAllGo ['\r', '\n'] ['\n'] f t).head? = some '\n' := by
                rw [hrec]
                rfl
              rcases replaceAllGo_crlf_head hh with hstart | htake2
              · apply hc
                cases t with
                | nil => simp at hstart
                | cons b t2 =>
                  simp only [List.head?_cons, Option.some.injEq] at hstart
                  subst hstart
                  simp
              · have h0 := hno 0
                rw [matchAt] at h0
                simp only [List.drop_zero] at h0
                cases t with
                | nil => simp at htake2
                | cons b t2 =>
                  cases t2 with
                  | nil => simp at htake2
                  | cons d t3 =>
                    simp only [List.take_succ_cons, List.take_zero] at htake2
                    simp only [List.cons.injEq] at htake2
                    obtain ⟨rfl, rfl, -⟩ := htake2
                    simp at h0
            · simp [hy]
        · simp [ha]
      | succ i =>
        rw [matchAt_cons]
        refine ih t (by omega) ?_ i
        intro k
        have hsh := hno (k + 1)
        rwa [matchAt_cons] at hsh

/-- C3: counterexample — the CRLF→LF normalization is not idempotent: on
`"\r\r\n"` one pass yields `"\r\n"` and a second pass yields `"\n"`. -/
theorem C3_normalize_not_idempotent :
    normalize_line_endings "\r\r\n".toList = "\r\n".toList ∧
    normalize_line_endings (normalize_line_endings "\r\r\n".toList) ≠
      normalize_line_endings "\r\r\n".toList := by
  constructor
  · rfl
  · decide

/-- C3 (amended): the CRLF→LF normalization is idempotent on every string
that does not contain the substring `"\r\r\n"`; in general a `'\r'`
immediately before a `"\r\n"` pair survives the first pass next to a fresh
`'\n'`, so a second pass can still rewrite. -/
theorem C3_normalize_idempotent_amended (s : List Char)
    (h : ∀ i, i < s.length → matchAt s ['\r', '\r', '\n'] i = false) :
    normalize_line_endings (normalize_line_endings s) = normalize_line_endings s := by
  have hfull : ∀ i, matchAt s ['\r', '\r', '\n'] i = false := by
    intro i
    by_cases hi : i < s.length
    · exact h i hi
    · exact matchAt_ge_false (by decide) (by omega)
  have hcr : ∀ i, matchAt (normalize_line_endings s) ['\r', '\n'] i = false := by
    unfold normalize_line_endings replaceAllSub
    rw [if_neg (by decide : ¬(['\r', '\n'] : List Char) = [])]
    exact norm_go_no_crlf s.length s (le_refl _) hfull
  exact replaceAllSub_nomatch (by decide) (fun i _ => hcr i)

/-- Witness for the amended C3 on a string with an ordinary CRLF pair. -/
theorem C3_normalize_idempotent_witness :
    normalize_line_endings (normalize_line_endings "a\r\nb".toList) =
      normalize_line_endings "a\r\nb".toList := by
  apply C3_normalize_idempotent_amended
  intro i hi
  have hb : i < 4 := by simpa using hi
  interval_cases i <;> decide

/-! ### Claim C6: the block-anchor strategy -/

/-- Stated from the claim's words: `(i, j)` delimits a candidate block for
the block-anchor strategy iff content line `i` (trimmed) equals the first
search line (trimmed), content line `j` (trimmed) equals the last search
line (trimmed), `j` lies inside the content, at least one line lies
strictly between `i` and `j`, and `j` is the nearest such hit (no earlier
last-line hit at or after `i + 2`). -/
def specBlockCandidate (cl sl : List (List Char)) (i j : Nat) : Prop :=
  j < cl.length ∧ i + 2 ≤ j ∧
  rustTrim (cl.getD i []) = rustTrim (sl.headD []) ∧
  rustTrim (cl.getD j []) = rustTrim ((sl.getLast?).getD []) ∧
  ∀ k, k < j → i + 2 ≤ k → rustTrim (cl.getD k []) ≠ rustTrim ((sl.getLast?).getD [])

instance instDecSpecBlockCandidate (cl sl : List (List Char)) (i j : Nat) :
    Decidable (specBlockCandidate cl sl i j) := by
  unfold specBlockCandidate
  infer_instance

/-- All candidate index pairs, in row-major order. -/
def specBlockPairs (content old : List Char) : List (Nat × Nat) :=
  ((List.range (rustLines content).length).flatMap
      (fun i => (List.range (rustLines content).length).map (fun j => (i, j)))).filter
    (fun p => decide (specBlockCandidate (rustLines content) (rustLines old) p.1 p.2))

/-- The joined text of the block delimited by a candidate pair. -/
def renderBlock (cl : List (List Char)) (p : Nat × Nat) : List Char :=
  List.intercalate ['\n'] ((cl.drop p.1).take (p.2 - p.1 + 1))

lemma find?_range'_some {p : Nat → Bool} :
    ∀ (len s j : Nat), (List.range' s len).find? p = some j →
      s ≤ j ∧ j < s + len ∧ p j = true ∧ ∀ k, s ≤ k → k < j → p k = false := by
  intro len
  induction len with
  | zero =>
    intro s j h
    simp [List.range'] at h
  | succ len ih =>
    intro s j h
    rw [List.range'_succ] at h
    by_cases hs : p s = true
    · rw [List.find?_cons_of_pos _ hs] at h
      obtain rfl : s = j := by simpa using h
      exact ⟨le_refl _, by omega, hs, fun k hk1 hk2 => by omega⟩
    · rw [List.find?_cons_of_neg _ (by simpa using hs)] at h
      obtain ⟨h1, h2, h3, h4⟩ := ih (s + 1) j h
      refine ⟨by omega, by omega, h3, ?_⟩
      intro k hk1 hk2
      rcases Nat.eq_or_lt_of_le hk1 with heq | hlt
      · rw [← heq]
        cases hps : p s
        · rfl
        · exact absurd hps hs
      · exact h4 k (by omega) hk2

lemma range_filter_eq_singleton {q : Nat → Bool} {n j0 : Nat} (hj : j0 < n)
    (hq : ∀ j, q j = true ↔ j = j0) : (List.range n).filter q = [j0] := by
  induction n with
  | zero => omega
  | succ n ih =>
    rw [List.range_succ, List.filter_append]
    by_cases hn : j0 = n
    · subst hn
      have h1 : (List.range j0).filter q = [] := by
        rw [List.filter_eq_nil_iff]
        intro a ha
        rw [List.mem_range] at ha
        intro hqa
        have := (hq a).mp hqa
        omega
      rw [h1]
      simp [(hq j0).mpr rfl]
    · have hj2 : j0 < n := by omega
      rw [ih hj2]
      have hqn : q n = false := by
        cases hqn : q n
        · rfl
        · exact absurd ((hq n).mp hqn) (by omega)
      simp [hqn]

lemma filterMap_eq_flatMap {α β : Type} (l : List α) (F : α → Option β) (G : α → List β)
    (h : ∀ a ∈ l, (F a).toList = G a) : l.filterMap F = l.flatMap G := by
  induction l with
  | nil => rfl
  | cons a t ih =>
    rw [List.filterMap_cons, List.flatMap_cons]
    have ha := h a (by simp)
    have ht := ih (fun x hx => h x (by simp [hx]))
    cases hF : F a with
    | none =>
      rw [hF] at ha
      simp only [Option.toList] at ha
      rw [← ha, ht]
      simp
    | some b =>
      rw [hF] at ha
      simp only [Option.toList] at ha
      rw [← ha, ht]
      simp

/-- C6: the block-anchor strategy is attempted only when the search text
spans at least three lines, and its candidate matches are exactly the
blocks described by `specBlockCandidate`: first/last line anchored after
trimming, at least one line strictly between, nearest last-line hit. -/
theorem C6_block_anchor (content old new : List Char) (ra : Bool) :
    ((rustLines old).length < 3 → try_block_anchor_replace content old new ra = none) ∧
    blockAnchorMatches content old =
      (specBlockPairs content old).map (renderBlock (rustLines content)) := by
  constructor
  · intro h
    unfold try_block_anchor_replace
    simp [h]
  · unfold blockAnchorMatches specBlockPairs
    rw [List.filter_flatMap, List.map_flatMap]
    apply filterMap_eq_flatMap
    intro i hi
    rw [List.mem_range] at hi
    rw [List.filter_map, List.map_map]
    simp only [Function.comp_def]
    by_cases hfirst : rustTrim ((rustLines content).getD i []) =
        rustTrim ((rustLines old).headD [])
    · rw [if_pos hfirst]
      cases hfind : (List.range' (i + 2) ((rustLines content).length - (i + 2))).find?
          (fun j => rustTrim ((rustLines content).getD j []) ==
            rustTrim (((rustLines old).getLast?).getD [])) with
      | some j0 =>
        obtain ⟨hj1, hj2, hj3, hj4⟩ := find?_range'_some _ _ _ hfind
        have hlen : i + 2 ≤ (rustLines content).length := by
          by_contra hcon
          push_neg at hcon
          have : (rustLines content).length - (i + 2) = 0 := by omega
          rw [this] at hfind
          simp [List.range'] at hfind
        have hj0 : j0 < (rustLines content).length := by omega
        have hiff : ∀ j, (decide (specBlockCandidate (rustLines content) (rustLines old) (i, j).1 (i, j).2)) = true ↔ j = j0 := by
          intro j
          rw [decide_eq_true_eq]
          dsimp only
          constructor
          · rintro ⟨hc1, hc2, hc3, hc4, hc5⟩
            by_contra hne
            rcases Nat.lt_or_ge j j0 with hlt | hge
            · have hbf := hj4 j (by omega) hlt
              rw [beq_eq_false_iff_ne] at hbf
              exact hbf hc4
            · have hgt : j0 < j := by omega
              exact hc5 j0 hgt (by omega) (by simpa using hj3)
          · rintro rfl
            refine ⟨hj0, by omega, hfirst, by simpa using hj3, ?_⟩
            intro k hk1 hk2 hkeq
            have hbf := hj4 k hk2 hk1
            rw [beq_eq_false_iff_ne] at hbf
            exact hbf hkeq
        rw [range_filter_eq_singleton hj0 hiff]
        simp [renderBlock]
      | none =>
        have hnone := List.find?_eq_none.mp hfind
        have hfe : (List.range (rustLines content).length).filter
            (fun j => decide (specBlockCandidate (rustLines content) (rustLines old) (i, j).1 (i, j).2)) = [] := by
          rw [List.filter_eq_nil_iff]
          intro j hj hcand
          rw [decide_eq_true_eq] at hcand
          obtain ⟨hc1, hc2, hc3, hc4, hc5⟩ := hcand
          have hjmem : j ∈ List.range' (i + 2) ((rustLines content).length - (i + 2)) := by
            rw [List.mem_range'_1]
            exact ⟨hc2, by omega⟩
          exact (hnone j hjmem) (by simpa using hc4)
        rw [hfe]
        simp
    · rw [if_neg hfirst]
      have hfe : (List.range (rustLines content).length).filter
          (fun j => decide (specBlockCandidate (rustLines content) (rustLines old) (i, j).1 (i, j).2)) = [] := by
        rw [List.filter_eq_nil_iff]
        intro j hj hcand
        rw [decide_eq_true_eq] at hcand
        exact hfirst hcand.2.2.1
      rw [hfe]
      simp

/-- Witness for C6: a two-line search text makes the strategy step aside,
and the candidate characterization holds on a concrete content. -/
theorem C6_block_anchor_witness :
    try_block_anchor_replace "x\ny\nz".toList "a\nb".toList "w".toList false = none ∧
    blockAnchorMatches "x\ny\nz".toList "a\nb".toList =
      (specBlockPairs "x\ny\nz".toList "a\nb".toList).map
        (renderBlock (rustLines "x\ny\nz".toList)) :=
  ⟨(C6_block_anchor "x\ny\nz".toList "a\nb".toList "w".toList false).1 (by decide),
   (C6_block_anchor "x\ny\nz".toList "a\nb".toList "w".toList false).2⟩

/-! ### Claim C5: binary file classification (src/rust/src/util/binary.rs)

A path is modelled by its file name (`List Char`); content is a byte list
(`List Nat`, values below 256). -/

/-- The `BINARY_EXTENSIONS` table (binary.rs:9). -/
def BINARY_EXTENSIONS : List (List Char) :=
  [".zip".toList, ".tar".toList, ".gz".toList, ".exe".toList, ".dll".toList,
   ".so".toList, ".class".toList, ".jar".toList, ".war".toList, ".7z".toList,
   ".doc".toList, ".docx".toList, ".xls".toList, ".xlsx".toList, ".ppt".toList,
   ".pptx".toList, ".odt".toList, ".ods".toList, ".odp".toList, ".bin".toList,
   ".dat".toList, ".obj".toList, ".o".toList, ".a".toList, ".lib".toList,
   ".wasm".toList, ".pyc".toList, ".pyo".toList]

/-- Model of `Path::extension` on a plain file name: the portion after the
final `'.'`, none when there is no `'.'` or when the only `'.'` leads the
name (hidden files). -/
def pathExt (name : List Char) : Option (List Char) :=
  match ((List.range name.length).filter (fun i => name.getD i ' ' = '.')).getLast? with
  | none => none
  | some j => if j = 0 then none else some (name.drop (j + 1))

/-- ASCII lowercasing of one character; `char::to_lowercase` agrees with
this on ASCII, and no non-ASCII letter lowercases into the ASCII-only
extension table above. -/
def asciiLower (c : Char) : Char :=
  if 'A' ≤ c ∧ c ≤ 'Z' then Char.ofNat (c.toNat + 32) else c

/-- Model of `is_binary_extension` (binary.rs:21). -/
def is_binary_extension (name : List Char) : Bool :=
  match pathExt name with
  | none => false
  | some ext => BINARY_EXTENSIONS.contains ('.' :: ext.map asciiLower)

/-- Model of `is_binary_file` (binary.rs:56).  The final percentage test
`non_printable / len > 0.3` is modelled in exact rational arithmetic as
`10 * non_printable > 3 * len`; no claim depends on that branch, which is
only reached for non-empty null-free content with a non-binary extension. -/
def is_binary_file (name : List Char) (content : List Nat) : Bool :=
  if is_binary_extension name then true
  else if content.isEmpty then false
  else
    let bytes := content.take 4096
    if bytes.contains 0 then true
    else
      let non_printable_count :=
        (bytes.filter (fun b => b < 9 ∨ (13 < b ∧ b < 32))).length
      decide (3 * bytes.length < 10 * non_printable_count)

/-- C5: counterexample — the claim says an empty file is never classified
binary, but the extension check runs first: an empty `"a.bin"` is
classified binary. -/
theorem C5_empty_bin_file_binary :
    is_binary_file "a.bin".toList [] = true := by decide

/-- C5 (amended): a file whose lowercased extension is `".bin"` is
classified binary whatever its content; a file without a recognized binary
extension whose first 4096 bytes contain a null byte is classified binary;
and an empty file without a recognized binary extension is not classified
binary (the unrestricted "an empty file is never binary" fails on an empty
`"a.bin"`). -/
theorem C5_binary_classification (name : List Char) (content : List Nat) :
    (∀ e, pathExt name = some e → ('.' :: e.map asciiLower) = ".bin".toList →
      is_binary_file name content = true) ∧
    (is_binary_extension name = false → (content.take 4096).contains 0 = true →
      is_binary_file name content = true) ∧
    (is_binary_extension name = false → content = [] →
      is_binary_file name content = false) := by
  refine ⟨?_, ?_, ?_⟩
  · intro e he hlow
    have hbe : is_binary_extension name = true := by
      unfold is_binary_extension
      rw [he]
      simp only [hlow]
      decide
    unfold is_binary_file
    rw [hbe]
    rfl
  · intro hbe hnull
    have hcne : content ≠ [] := by
      intro hc
      subst hc
      simp at hnull
    unfold is_binary_file
    rw [hbe]
    simp only [Bool.false_eq_true, if_false]
    rw [if_neg (by simpa [List.isEmpty_iff] using hcne)]
    rw [if_pos hnull]
  · intro hbe hc
    subst hc
    unfold is_binary_file
    rw [hbe]
    rfl

/-- Witness for C5 at concrete inputs: an ASCII-content `.bin` file, a
null byte under a text extension, and an empty text file. -/
theorem C5_binary_classification_witness :
    is_binary_file "data.BIN".toList [104, 105] = true ∧
    is_binary_file "x.txt".toList [104, 0, 105] = true ∧
    is_binary_file "x.txt".toList [] = false :=
  ⟨(C5_binary_classification "data.BIN".toList [104, 105]).1 "BIN".toList
      (by decide) (by decide),
   (C5_binary_classification "x.txt".toList [104, 0, 105]).2.1 (by decide) (by decide),
   (C5_binary_classification "x.txt".toList []).2.2 (by decide) rfl⟩

/-! ### Claim C7: supplied identifiers (src/rust/src/id.rs) -/

/-- The `Prefix` enum (id.rs:13). -/
inductive PrefixTag
  | session
  | message
  | permission
  | user
  | part

/-- Model of `Prefix::as_str` (id.rs:23). -/
def PrefixTag.asStr : PrefixTag → List Char
  | .session => "ses".toList
  | .message => "msg".toList
  | .permission => "per".toList
  | .user => "usr".toList
  | .part => "prt".toList

/-- Model of the `Some(id)` arm of `ascending` (id.rs:102): the supplied
identifier is returned unchanged when it starts with the expected prefix
string; a mismatch is a `panic!` (abrupt termination), modelled as `none`. -/
def ascendingGiven (p : PrefixTag) (id : List Char) : Option (List Char) :=
  if (p.asStr).isPrefixOf id then some id else none

/-- Model of the `Some(id)` arm of `descending` (id.rs:116). -/
def descendingGiven (p : PrefixTag) (id : List Char) : Option (List Char) :=
  if (p.asStr).isPrefixOf id then some id else none

/-- C7: a supplied identifier is returned unchanged iff it starts with the
prefix's string; otherwise the call aborts (no recoverable value), for both
`ascending` and `descending`. -/
theorem C7_given_id_prefix_check (p : PrefixTag) (id : List Char) :
    (ascendingGiven p id = some id ↔ (p.asStr).isPrefixOf id = true) ∧
    ((p.asStr).isPrefixOf id = false → ascendingGiven p id = none) ∧
    (descendingGiven p id = some id ↔ (p.asStr).isPrefixOf id = true) ∧
    ((p.asStr).isPrefixOf id = false → descendingGiven p id = none) := by
  unfold ascendingGiven descendingGiven
  refine ⟨⟨fun h => ?_, fun h => ?_⟩, fun h => ?_, ⟨fun h => ?_, fun h => ?_⟩, fun h => ?_⟩
  · by_cases hp : (p.asStr).isPrefixOf id
    · exact hp
    · rw [if_neg (by simpa using hp)] at h
      exact Option.noConfusion h
  · rw [if_pos h]
  · rw [if_neg (by simp [h])]
  · by_cases hp : (p.asStr).isPrefixOf id
    · exact hp
    · rw [if_neg (by simpa using hp)] at h
      exact Option.noConfusion h
  · rw [if_pos h]
  · rw [if_neg (by simp [h])]

/-- Witness for C7 on the source's own test vectors. -/
theorem C7_given_id_prefix_check_witness :
    ascendingGiven .session "ses_abc123def456".toList =
      some "ses_abc123def456".toList ∧
    ascendingGiven .session "msg_wrong".toList = none ∧
    descendingGiven .message "msg_x".toList = some "msg_x".toList ∧
    descendingGiven .message "ses_x".toList = none :=
  ⟨(C7_given_id_prefix_check .session "ses_abc123def456".toList).1.mpr (by decide),
   (C7_given_id_prefix_check .session "msg_wrong".toList).2.1 (by decide),
   (C7_given_id_prefix_check .message "msg_x".toList).2.2.1.mpr (by decide),
   (C7_given_id_prefix_check .message "ses_x".toList).2.2.2 (by decide)⟩

/-! ### Claim C8: the bash tool result (src/rust/src/tool/bash.rs) -/

/-- Decimal rendering of an `i32` exit code, as Rust `format!("{}", c)`. -/
def intStr (c : Int) : List Char :=
  if c < 0 then '-' :: Nat.toDigits 10 c.natAbs else Nat.toDigits 10 c.natAbs

/-- The separator pushed between stdout and stderr (bash.rs:119). -/
def stderrSep : List Char := "\n--- stderr ---\n".toList

/-- The truncation note (bash.rs:127). -/
def truncNote : List Char := "\n... (output truncated)".toList

/-- The exit-code note without its leading newline (bash.rs:131). -/
def exitNote (c : Int) : List Char := "(exit code: ".toList ++ intStr c ++ [')']

/-- Combined stdout-then-stderr output (bash.rs:111-122). -/
def bashCombined (stdout stderr : List Char) : List Char :=
  let output : List Char := []
  let output := if stdout.isEmpty then output else output ++ stdout
  if stderr.isEmpty then output
  else (if output.isEmpty then output else output ++ stderrSep) ++ stderr

/-- Truncation past 30000 characters (bash.rs:125; Rust measures bytes,
modelled as characters). -/
def bashTruncated (stdout stderr : List Char) : List Char :=
  let output := bashCombined stdout stderr
  if 30000 < output.length then output.take 30000 ++ truncNote else output

/-- Model of the `Ok(Ok(..))` arm of `execute` (bash.rs:110-143): the
final output text and the `exitCode` metadata field. -/
def bashExecuteOk (stdout stderr : List Char) (exit_code : Int) :
    List Char × Int :=
  (if exit_code ≠ 0 then bashTruncated stdout stderr ++ '\n' :: exitNote exit_code
   else bashTruncated stdout stderr, exit_code)

/-- C8: on normal completion with a nonzero exit code `c` the metadata exit
code equals `c` and the output ends with `"(exit code: c)"`; with exit code
0 the output is exactly the truncated combined stream, with no note
appended. -/
theorem C8_exit_code_note (stdout stderr : List Char) (c : Int) (h : c ≠ 0) :
    (bashExecuteOk stdout stderr c).2 = c ∧
    (exitNote c).IsSuffix (bashExecuteOk stdout stderr c).1 ∧
    (bashExecuteOk stdout stderr 0).1 = bashTruncated stdout stderr := by
  refine ⟨rfl, ?_, by simp [bashExecuteOk]⟩
  unfold bashExecuteOk
  rw [if_pos h]
  exact ⟨bashTruncated stdout stderr ++ ['\n'], by simp⟩

/-- Witness for C8 at the spec's scenario, exit code 42. -/
theorem C8_exit_code_note_witness :
    (bashExecuteOk "out".toList "".toList 42).2 = 42 ∧
    (exitNote 42).IsSuffix (bashExecuteOk "out".toList "".toList 42).1 :=
  ⟨(C8_exit_code_note "out".toList "".toList 42 (by decide)).1,
   (C8_exit_code_note "out".toList "".toList 42 (by decide)).2.1⟩

/-! ### Claims C9 and C10: the edit tool's execute (edit.rs:78).

The file system is modelled as a map from resolved paths to contents;
`diffCounts` abstracts the external `similar` crate's line-diff counters
used on the replacement path (both claims hold for every `diffCounts`). -/

/-- Parameters of the edit tool (edit.rs:28). -/
structure EditParams where
  filePath : List Char
  oldString : List Char
  newString : List Char
  replaceAll : Bool

/-- Model of `ToolContext::resolve_path` (context.rs:64) on string paths:
an absolute path (leading `'/'`) is returned verbatim, otherwise it is
joined under the working directory. -/
def resolve_path (working_directory p : List Char) : List Char :=
  if p.headD ' ' = '/' then p else working_directory ++ '/' :: p

/-- Errors surfaced by the edit tool. -/
inductive EditErr
  | invalidArguments (msg : List Char)
  | fileNotFound (path : List Char)
  | toolExecution (msg : List Char)
deriving DecidableEq

/-- Result of a successful edit: the updated file store and the `filediff`
metadata fields. -/
structure EditOutcome where
  fs : List Char → Option (List Char)
  before : List Char
  after : List Char
  additions : Nat
  deletions : Nat

/-- Model of `EditTool::execute` (edit.rs:78-169). -/
def editExecute (diffCounts : List Char → List Char → Nat × Nat)
    (working_directory : List Char) (params : EditParams)
    (fs : List Char → Option (List Char)) : Except EditErr EditOutcome :=
  if params.oldString = params.newString then
    .error (.invalidArguments "oldString and newString must be different".toList)
  else
    let filepath := resolve_path working_directory params.filePath
    if params.oldString = [] then
      .ok { fs := fun q => if q = filepath then some params.newString else fs q,
            before := [], after := params.newString,
            additions := (rustLines params.newString).length, deletions := 0 }
    else
      match fs filepath with
      | none => .error (.fileNotFound filepath)
      | some content0 =>
        let content_old := normalize_line_endings content0
        match replace content_old params.oldString params.newString params.replaceAll with
        | .error m => .error (.toolExecution m)
        | .ok content_new =>
          .ok { fs := fun q => if q = filepath then some content_new else fs q,
                before := content_old, after := content_new,
                additions := (diffCounts content_old content_new).1,
                deletions := (diffCounts content_old content_new).2 }

/-- C9: counterexample — with `oldString = ""` and `newString = ""` the
equality guard fires first and the call fails with `InvalidArguments`
instead of writing, so the claim's "any newString" is too strong. -/
theorem C9_empty_newstring_rejected :
    editExecute (fun _ _ => (0, 0)) "/w".toList ⟨"/f".toList, [], [], false⟩
      (fun _ => none) =
    .error (.invalidArguments "oldString and newString must be different".toList) := rfl

/-- C9 (amended): with `oldString = ""` and any non-empty `newString`,
execute succeeds for every file store: the resolved path is overwritten
with exactly `newString` whether or not the file existed, no other path
changes, and the reported deletions count is 0. -/
theorem C9_empty_old_creates (diffCounts : List Char → List Char → Nat × Nat)
    (working_directory : List Char) (params : EditParams)
    (fs : List Char → Option (List Char))
    (h0 : params.oldString = []) (h1 : params.newString ≠ []) :
    ∃ out, editExecute diffCounts working_directory params fs = .ok out ∧
      out.fs (resolve_path working_directory params.filePath) = some params.newString ∧
      (∀ q, q ≠ resolve_path working_directory params.filePath → out.fs q = fs q) ∧
      out.deletions = 0 ∧ out.after = params.newString := by
  have hneq : ¬ params.oldString = params.newString := by
    rw [h0]
    exact fun hc => h1 hc.symm
  refine ⟨{ fs := fun q => if q = resolve_path working_directory params.filePath
              then some params.newString else fs q,
            before := [], after := params.newString,
            additions := (rustLines params.newString).length, deletions := 0 },
    ?_, by simp, fun q hq => by simp [hq], rfl, rfl⟩
  simp only [editExecute, if_neg hneq, if_pos h0]

/-- Witness for the amended C9: creating a file over an empty store. -/
theorem C9_empty_old_creates_witness :
    ∃ out, editExecute (fun _ _ => (0, 0)) "/w".toList
        ⟨"/tmp/f".toList, [], "new content".toList, false⟩ (fun _ => none) =
        .ok out ∧
      out.fs (resolve_path "/w".toList "/tmp/f".toList) = some "new content".toList ∧
      out.deletions = 0 := by
  obtain ⟨out, ha, hb, hc, hd, he⟩ := C9_empty_old_creates (fun _ _ => (0, 0))
    "/w".toList ⟨"/tmp/f".toList, [], "new content".toList, false⟩ (fun _ => none)
    rfl (by decide)
  exact ⟨out, ha, hb, hd⟩

/-- C10: with `oldString = newString` the edit tool fails with
`InvalidArguments`; the result is the same error for every file store, so
the check precedes any filesystem access and the target file is unchanged. -/
theorem C10_equal_strings_rejected (diffCounts : List Char → List Char → Nat × Nat)
    (working_directory : List Char) (params : EditParams)
    (fs : List Char → Option (List Char))
    (h : params.oldString = params.newString) :
    editExecute diffCounts working_directory params fs =
      .error (.invalidArguments "oldString and newString must be different".toList) := by
  unfold editExecute
  rw [if_pos h]

/-- Witness for C10 on the source's own test vector. -/
theorem C10_equal_strings_rejected_witness :
    editExecute (fun _ _ => (0, 0)) "/w".toList
      ⟨"/f".toList, "hello".toList, "hello".toList, false⟩
      (fun _ => some "hello".toList) =
    .error (.invalidArguments "oldString and newString must be different".toList) :=
  C10_equal_strings_rejected _ _ _ _ rfl

/-! ### Claim C4: monotonic identifiers (src/rust/src/id.rs:67) -/

/-- One lowercase hexadecimal digit, as produced by `format!("{b:02x}")`. -/
def hexDigitChar : Nat → Char
  | 0 => '0'
  | 1 => '1'
  | 2 => '2'
  | 3 => '3'
  | 4 => '4'
  | 5 => '5'
  | 6 => '6'
  | 7 => '7'
  | 8 => '8'
  | 9 => '9'
  | 10 => 'a'
  | 11 => 'b'
  | 12 => 'c'
  | 13 => 'd'
  | 14 => 'e'
  | 15 => 'f'
  | _ => '0'

/-- The six time bytes (id.rs:89-92): byte `i` is `(now >> (40 - 8*i)) & 0xff`. -/
def timeBytes (now : Nat) : List Nat :=
  (List.range 6).map (fun i => (now >>> (40 - 8 * i)) % 256)

/-- Two lowercase hex digits of one byte (id.rs:95). -/
def byteHex (b : Nat) : List Char := [hexDigitChar (b / 16), hexDigitChar (b % 16)]

/-- The 12-character time field (id.rs:95). -/
def timeHex (now : Nat) : List Char := ((timeBytes now).map byteHex).flatten

/-- The generator's shared state (id.rs:35-36). -/
structure GenState where
  lastTimestamp : Nat
  counter : Nat

/-- Counter update of `create` (id.rs:71-78); the counter is a `u32`, so
its increment wraps modulo `2^32`. -/
def createCounter (ts : Nat) (s : GenState) : Nat × GenState :=
  if ts ≠ s.lastTimestamp then (1, ⟨ts, 1⟩)
  else ((s.counter + 1) % 4294967296, ⟨s.lastTimestamp, (s.counter + 1) % 4294967296⟩)

/-- Model of `create` (id.rs:67-99): combine `timestamp * 0x1000 + counter`
in exact `u128` arithmetic (no overflow: the value is below `2^76`),
bitwise-invert when descending (`!now` on `u128` is `2^128 - 1 - now`),
render the low 48 bits as 12 lowercase hex characters, and append the
random base62 suffix, which is an environment input here. -/
def create (pfx : List Char) (descending : Bool) (ts : Nat) (suffix : List Char)
    (s : GenState) : List Char × GenState :=
  let cs := createCounter ts s
  let now := ts * 4096 + cs.1
  let now2 := if descending then 2 ^ 128 - 1 - now else now
  (pfx ++ '_' :: (timeHex now2 ++ suffix), cs.2)

/-- Sequential calls of `create` on a list of clock values and random
suffixes, threading the shared state. -/
def runIds (pfx : List Char) (descending : Bool) :
    GenState → List (Nat × List Char) → List (List Char)
  | _, [] => []
  | s, (ts, suffix) :: rest =>
    let r := create pfx descending ts suffix s
    r.1 :: runIds pfx descending r.2 rest

/-- The combined `ts * 4096 + counter` values of a call sequence. -/
def runVals : GenState → List Nat → List Nat
  | _, [] => []
  | s, ts :: rest =>
    let cs := createCounter ts s
    (ts * 4096 + cs.1) :: runVals cs.2 rest

/-- Big-endian base-16 rendering with `w` digits (proof-side companion of
`timeHex`). -/
def hexRender : Nat → Nat → List Char
  | 0, _ => []
  | w + 1, v => hexRender w (v / 16) ++ [hexDigitChar (v % 16)]

lemma hexRender_length : ∀ (w v : Nat), (hexRender w v).length = w := by
  intro w
  induction w with
  | zero => intro v; rfl
  | succ w ih =>
    intro v
    simp [hexRender, ih]

lemma hexRender_split :
    ∀ (b a v : Nat), hexRender (a + b) v =
      hexRender a (v / 16 ^ b) ++ hexRender b (v % 16 ^ b) := by
  intro b
  induction b with
  | zero =>
    intro a v
    simp [hexRender, Nat.mod_one]
  | succ b ih =>
    intro a v
    have hstep : hexRender (a + b + 1) v =
        hexRender (a + b) (v / 16) ++ [hexDigitChar (v % 16)] := rfl
    have hgoal : a + (b + 1) = (a + b) + 1 := by omega
    rw [hgoal, hstep, ih a (v / 16)]
    have h1 : v / 16 / 16 ^ b = v / 16 ^ (b + 1) := by
      rw [Nat.div_div_eq_div_mul, ← Nat.pow_succ']
    have h2 : hexRender (b + 1) (v % 16 ^ (b + 1)) =
        hexRender b (v % 16 ^ (b + 1) / 16) ++ [hexDigitChar (v % 16 ^ (b + 1) % 16)] := rfl
    have h3 : v % 16 ^ (b + 1) / 16 = v / 16 % 16 ^ b := by
      rw [Nat.pow_succ']
      exact Nat.mod_mul_right_div_self v 16 (16 ^ b)
    have h4 : v % 16 ^ (b + 1) % 16 = v % 16 :=
      Nat.mod_mod_of_dvd v (dvd_pow_self 16 (by omega))
    rw [h2, h3, h4, h1, List.append_assoc]

lemma hexRender_two {u : Nat} (h : u < 256) : hexRender 2 u = byteHex u := by
  have hs : hexRender 2 u = hexRender 1 (u / 16) ++ [hexDigitChar (u % 16)] := rfl
  have hs1 : hexRender 1 (u / 16) = [hexDigitChar (u / 16 % 16)] := rfl
  rw [hs, hs1]
  have : u / 16 % 16 = u / 16 := Nat.mod_eq_of_lt (by omega)
  rw [this]
  rfl

lemma bytesHexW_eq :
    ∀ (w now : Nat),
      (((List.range w).map (fun i => (now >>> (8 * (w - 1 - i))) % 256)).map byteHex).flatten =
        hexRender (2 * w) (now % 16 ^ (2 * w)) := by
  intro w
  induction w with
  | zero => intro now; rfl
  | succ w ih =>
    intro now
    rw [List.range_succ_eq_map]
    simp only [List.map_cons, List.map_map, List.flatten_cons, Function.comp_def]
    have hrest : List.map (fun i => byteHex (now >>> (8 * (w + 1 - 1 - Nat.succ i)) % 256))
        (List.range w) =
        List.map (fun i => byteHex (now >>> (8 * (w - 1 - i)) % 256)) (List.range w) := by
      apply List.map_congr_left
      intro i hi
      have harg : 8 * (w + 1 - 1 - Nat.succ i) = 8 * (w - 1 - i) := by omega
      rw [harg]
    rw [hrest]
    have hih : (List.map (fun i => byteHex (now >>> (8 * (w - 1 - i)) % 256))
        (List.range w)).flatten = hexRender (2 * w) (now % 16 ^ (2 * w)) := by
      have h := ih now
      rw [List.map_map] at h
      simpa [Function.comp_def] using h
    rw [hih]
    have hsplit : hexRender (2 * (w + 1)) (now % 16 ^ (2 * (w + 1))) =
        hexRender 2 (now % 16 ^ (2 * (w + 1)) / 16 ^ (2 * w)) ++
          hexRender (2 * w) (now % 16 ^ (2 * (w + 1)) % 16 ^ (2 * w)) := by
      rw [show 2 * (w + 1) = 2 + 2 * w by omega]
      exact hexRender_split (2 * w) 2 _
    rw [hsplit]
    have hmm : now % 16 ^ (2 * (w + 1)) % 16 ^ (2 * w) = now % 16 ^ (2 * w) :=
      Nat.mod_mod_of_dvd now (pow_dvd_pow 16 (by omega))
    have hdv : now % 16 ^ (2 * (w + 1)) / 16 ^ (2 * w) = (now >>> (8 * w)) % 256 := by
      have hp : (16 : Nat) ^ (2 * (w + 1)) = 16 ^ (2 * w) * 256 := by
        rw [show 2 * (w + 1) = 2 * w + 2 by omega, Nat.pow_add]
      rw [hp, Nat.mod_mul_right_div_self, Nat.shiftRight_eq_div_pow]
      congr 1
      rw [show (2 : Nat) ^ (8 * w) = 16 ^ (2 * w) by
        rw [show (16 : Nat) = 2 ^ 4 from rfl, ← Nat.pow_mul]
        congr 1
        omega]
    rw [hmm, hdv, hexRender_two (Nat.mod_lt _ (by omega))]
    have hb : 8 * (w + 1 - 1 - 0) = 8 * w := by omega
    rw [hb]

lemma timeHex_eq_hexRender (now : Nat) :
    timeHex now = hexRender 12 (now % 2 ^ 48) := by
  unfold timeHex timeBytes
  have hcong : (List.range 6).map (fun i => (now >>> (40 - 8 * i)) % 256) =
      (List.range 6).map (fun i => (now >>> (8 * (6 - 1 - i))) % 256) := by
    apply List.map_congr_left
    intro i hi
    rw [List.mem_range] at hi
    congr 2
    omega
  rw [hcong, bytesHexW_eq 6 now]
  norm_num

lemma hexDigitChar_mono {d e : Nat} (h1 : d < e) (h2 : e < 16) :
    hexDigitChar d < hexDigitChar e := by
  interval_cases e <;> interval_cases d <;> decide

lemma lex_append_left {r : Char → Char → Prop} :
    ∀ (p l1 l2 : List Char), List.Lex r l1 l2 → List.Lex r (p ++ l1) (p ++ l2) := by
  intro p
  induction p with
  | nil => intro l1 l2 h; exact h
  | cons a t ih => intro l1 l2 h; exact List.Lex.cons (ih l1 l2 h)

lemma lex_append_of_length {r : Char → Char → Prop} :
    ∀ (l1 l2 a b : List Char), l1.length = l2.length → List.Lex r l1 l2 →
      List.Lex r (l1 ++ a) (l2 ++ b) := by
  intro l1
  induction l1 with
  | nil =>
    intro l2 a b hlen h
    cases h with
    | nil => simp at hlen
  | cons x t ih =>
    intro l2 a b hlen h
    cases h with
    | @rel _ _ y l2t hr => exact List.Lex.rel hr
    | @cons _ _ l2t htail =>
      simp only [List.length_cons, Nat.add_right_cancel_iff] at hlen
      exact List.Lex.cons (ih l2t a b hlen htail)

lemma hexRender_mono :
    ∀ (w v1 v2 : Nat), v1 < v2 → v2 < 16 ^ w →
      List.Lex (· < ·) (hexRender w v1) (hexRender w v2) := by
  intro w
  induction w with
  | zero =>
    intro v1 v2 h1 h2
    norm_num at h2
    omega
  | succ w ih =>
    intro v1 v2 h1 h2
    have hs1 : hexRender (w + 1) v1 = hexRender w (v1 / 16) ++ [hexDigitChar (v1 % 16)] := rfl
    have hs2 : hexRender (w + 1) v2 = hexRender w (v2 / 16) ++ [hexDigitChar (v2 % 16)] := rfl
    rw [hs1, hs2]
    rcases Nat.lt_or_ge (v1 / 16) (v2 / 16) with hdiv | hdiv
    · refine lex_append_of_length _ _ _ _ (by rw [hexRender_length, hexRender_length]) ?_
      refine ih _ _ hdiv ?_
      rw [Nat.pow_succ, Nat.mul_comm] at h2
      exact Nat.div_lt_of_lt_mul h2
    · have heq : v1 / 16 = v2 / 16 := by omega
      rw [heq]
      apply lex_append_left
      exact List.Lex.rel (hexDigitChar_mono (by omega) (by omega))

/-- Lexicographic comparison of two rendered identifiers with the same
prefix is decided entirely inside the 12-character time field: the random
suffixes are irrelevant. -/
lemma lex_id_mk (p a b : List Char) (w1 w2 : Nat)
    (h : w1 % 2 ^ 48 < w2 % 2 ^ 48) :
    List.Lex (· < ·) (p ++ '_' :: (timeHex w1 ++ a)) (p ++ '_' :: (timeHex w2 ++ b)) := by
  apply lex_append_left
  apply List.Lex.cons
  rw [timeHex_eq_hexRender, timeHex_eq_hexRender]
  refine lex_append_of_length _ _ _ _ (by rw [hexRender_length, hexRender_length]) ?_
  refine hexRender_mono 12 _ _ h ?_
  have : w2 % 2 ^ 48 < 2 ^ 48 := Nat.mod_lt _ (by norm_num)
  calc w2 % 2 ^ 48 < 2 ^ 48 := this
  _ = 16 ^ 12 := by norm_num

lemma createCounter_step {ts : Nat} {s : GenState}
    (hle : s.lastTimestamp ≤ ts) (hcap : s.counter ≤ 4094) :
    ∃ c, createCounter ts s = (c, ⟨ts, c⟩) ∧ 1 ≤ c ∧ c ≤ s.counter + 1 ∧
      s.lastTimestamp * 4096 + s.counter < ts * 4096 + c := by
  by_cases hne : ts ≠ s.lastTimestamp
  · refine ⟨1, by rw [createCounter, if_pos hne], le_refl _, by omega, ?_⟩
    have hlt : s.lastTimestamp < ts := by omega
    have : s.lastTimestamp * 4096 + 4096 ≤ ts * 4096 := by
      have := Nat.succ_le_of_lt hlt
      calc s.lastTimestamp * 4096 + 4096 = (s.lastTimestamp + 1) * 4096 := by ring
      _ ≤ ts * 4096 := Nat.mul_le_mul_right _ this
    omega
  · push_neg at hne
    have hmod : (s.counter + 1) % 4294967296 = s.counter + 1 :=
      Nat.mod_eq_of_lt (by omega)
    refine ⟨s.counter + 1, ?_, by omega, by omega, by omega⟩
    rw [createCounter, if_neg (by simpa using hne), hmod, hne]

lemma runVals_aux :
    ∀ (tss : List Nat) (s : GenState),
      tss.Pairwise (· ≤ ·) → (∀ t ∈ tss, s.lastTimestamp ≤ t ∧ t < 2 ^ 36) →
      1 ≤ s.counter → s.counter + tss.length ≤ 4095 →
      (runVals s tss).Pairwise (· < ·) ∧
      (∀ v ∈ runVals s tss,
        s.lastTimestamp * 4096 + s.counter < v ∧ v < 2 ^ 48) := by
  intro tss
  induction tss with
  | nil =>
    intro s _ _ _ _
    exact ⟨List.Pairwise.nil, by simp [runVals]⟩
  | cons ts rest ih =>
    intro s hpw hbound hc1 hbudget
    obtain ⟨hts1, hts2⟩ := hbound ts (by simp)
    simp only [List.length_cons] at hbudget
    obtain ⟨c, hcs, hclo, hcle, hval⟩ :=
      createCounter_step (s := s) hts1 (by omega)
    have hrun : runVals s (ts :: rest) = (ts * 4096 + c) :: runVals ⟨ts, c⟩ rest := by
      simp [runVals, hcs]
    obtain ⟨hhead, htail⟩ := List.pairwise_cons.mp hpw
    have hih := ih ⟨ts, c⟩ htail
      (fun t ht => ⟨hhead t ht, (hbound t (List.mem_cons_of_mem _ ht)).2⟩)
      hclo (show c + rest.length ≤ 4095 by omega)
    obtain ⟨hpw2, hmem2⟩ := hih
    have hmem2x : ∀ v ∈ runVals ⟨ts, c⟩ rest, ts * 4096 + c < v ∧ v < 2 ^ 48 := by
      simpa using hmem2
    have h36 : (2 : Nat) ^ 36 = 68719476736 := by norm_num
    have h48 : (2 : Nat) ^ 48 = 281474976710656 := by norm_num
    rw [h36] at hts2
    rw [hrun]
    constructor
    · rw [List.pairwise_cons]
      refine ⟨fun v hv => ?_, hpw2⟩
      have := (hmem2x v hv).1
      omega
    · intro v hv
      rcases List.mem_cons.mp hv with rfl | hv2
      · refine ⟨hval, ?_⟩
        rw [h48]
        omega
      · obtain ⟨hgt, hlt⟩ := hmem2x v hv2
        exact ⟨by omega, hlt⟩

lemma runVals_from_zero (tss : List Nat) (hpw : tss.Pairwise (· ≤ ·))
    (hbound : ∀ t ∈ tss, 1 ≤ t ∧ t < 2 ^ 36) (hlen : tss.length ≤ 4095) :
    (runVals ⟨0, 0⟩ tss).Pairwise (· < ·) ∧
    (∀ v ∈ runVals ⟨0, 0⟩ tss, v < 2 ^ 48) := by
  cases tss with
  | nil => exact ⟨List.Pairwise.nil, by simp [runVals]⟩
  | cons ts rest =>
    obtain ⟨h1, h2⟩ := hbound ts (by simp)
    have hcs : createCounter ts ⟨0, 0⟩ = (1, ⟨ts, 1⟩) := by
      rw [createCounter, if_pos ?_]
      simp only
      omega
    have hrun : runVals ⟨0, 0⟩ (ts :: rest) = (ts * 4096 + 1) :: runVals ⟨ts, 1⟩ rest := by
      simp [runVals, hcs]
    obtain ⟨hhead, htail⟩ := List.pairwise_cons.mp hpw
    simp only [List.length_cons] at hlen
    obtain ⟨hpw2, hmem2⟩ := runVals_aux rest ⟨ts, 1⟩ htail
      (fun t ht => ⟨hhead t ht, (hbound t (List.mem_cons_of_mem _ ht)).2⟩)
      (le_refl 1) (show 1 + rest.length ≤ 4095 by omega)
    have hmem2x : ∀ v ∈ runVals ⟨ts, 1⟩ rest, ts * 4096 + 1 < v ∧ v < 2 ^ 48 := by
      simpa using hmem2
    have h36 : (2 : Nat) ^ 36 = 68719476736 := by norm_num
    have h48 : (2 : Nat) ^ 48 = 281474976710656 := by norm_num
    rw [h36] at h2
    rw [hrun]
    constructor
    · rw [List.pairwise_cons]
      refine ⟨fun v hv => ?_, hpw2⟩
      have := (hmem2x v hv).1
      omega
    · intro v hv
      rcases List.mem_cons.mp hv with rfl | hv2
      · rw [h48]
        omega
      · exact (hmem2x v hv2).2

lemma runIds_eq_map :
    ∀ (calls : List (Nat × List Char)) (s : GenState) (pfx : List Char)
      (descending : Bool),
      runIds pfx descending s calls =
        List.zipWith
          (fun v suffix => pfx ++ '_' ::
            (timeHex (if descending then 2 ^ 128 - 1 - v else v) ++ suffix))
          (runVals s (calls.map Prod.fst)) (calls.map Prod.snd) := by
  intro calls
  induction calls with
  | nil => intro s pfx descending; rfl
  | cons p rest ih =>
    intro s pfx descending
    obtain ⟨ts, suffix⟩ := p
    simp only [runIds, runVals, create, List.map_cons, List.zipWith_cons_cons]
    exact congrArg _ (ih _ pfx descending)

lemma mem_zipWith {α β γ : Type} {f : α → β → γ} :
    ∀ {l1 : List α} {l2 : List β} {z : γ}, z ∈ List.zipWith f l1 l2 →
      ∃ a ∈ l1, ∃ b ∈ l2, z = f a b := by
  intro l1
  induction l1 with
  | nil => intro l2 z h; simp at h
  | cons a t ih =>
    intro l2 z h
    cases l2 with
    | nil => simp at h
    | cons b u =>
      rw [List.zipWith_cons_cons] at h
      rcases List.mem_cons.mp h with rfl | h2
      · exact ⟨a, by simp, b, by simp, rfl⟩
      · obtain ⟨x, hx, y, hy, rfl⟩ := ih h2
        exact ⟨x, by simp [hx], y, by simp [hy], rfl⟩

lemma pairwise_zipWith {α β γ : Type} {R : α → α → Prop} {S : γ → γ → Prop}
    {f : α → β → γ} :
    ∀ (l1 : List α) (l2 : List β), l1.Pairwise R →
      (∀ x y a b, x ∈ l1 → y ∈ l1 → R x y → S (f x a) (f y b)) →
      (List.zipWith f l1 l2).Pairwise S := by
  intro l1
  induction l1 with
  | nil => intro l2 _ _; simp
  | cons x t ih =>
    intro l2 hpw hS
    cases l2 with
    | nil => simp
    | cons a u =>
      rw [List.zipWith_cons_cons, List.pairwise_cons]
      obtain ⟨hhead, htail⟩ := List.pairwise_cons.mp hpw
      constructor
      · intro z hz
        obtain ⟨y, hy, b, hb, rfl⟩ := mem_zipWith hz
        exact hS x y a b (by simp) (by simp [hy]) (hhead y hy)
      · exact ih u htail (fun p q c d hp hq => hS p q c d (by simp [hp]) (by simp [hq]))

lemma inv48_mod {v : Nat} (h : v < 2 ^ 48) :
    (2 ^ 128 - 1 - v) % 2 ^ 48 = 2 ^ 48 - 1 - v := by
  have h128 : (2 : Nat) ^ 128 = 340282366920938463463374607431768211456 := by norm_num
  have h48 : (2 : Nat) ^ 48 = 281474976710656 := by norm_num
  rw [h128, h48]
  rw [h48] at h
  omega

/-- C4: counterexample — the identifier time field is only the low 48 bits
of `timestamp * 4096 + counter`, so on a non-decreasing clock that crosses
a multiple of `2^36` milliseconds the rendered hex field wraps to zero and
the lexicographic order breaks: two ascending calls at `2^36 - 1` and
`2^36` produce ids whose order is inverted. -/
theorem C4_truncation_breaks_order :
    runIds "ses".toList false ⟨0, 0⟩ [(2 ^ 36 - 1, []), (2 ^ 36, [])] =
      ["ses_fffffffff001".toList, "ses_000000000001".toList] ∧
    ¬ List.Lex (· < ·) "ses_fffffffff001".toList "ses_000000000001".toList ∧
    ((2 : Nat) ^ 36 - 1 ≤ 2 ^ 36) := by
  refine ⟨by decide, by decide, by norm_num⟩

/-- C4 (amended): on a non-decreasing clock whose values stay below `2^36`
milliseconds (no 48-bit wrap of the combined field) and for at most 4095
calls (no counter overflow into the timestamp bits), ascending ids form a
strictly increasing lexicographic sequence and descending ids a strictly
decreasing one, for every prefix and every choice of random suffixes — the
suffix never participates in the ordering. -/
theorem C4_monotonic_ids_amended (pfx : List Char) (calls : List (Nat × List Char))
    (hts : (calls.map Prod.fst).Pairwise (· ≤ ·))
    (hbound : ∀ p ∈ calls, 1 ≤ p.1 ∧ p.1 < 2 ^ 36)
    (hlen : calls.length ≤ 4095) :
    (runIds pfx false ⟨0, 0⟩ calls).Pairwise (fun a b => List.Lex (· < ·) a b) ∧
    (runIds pfx true ⟨0, 0⟩ calls).Pairwise (fun a b => List.Lex (· < ·) b a) := by
  have hbt : ∀ t ∈ calls.map Prod.fst, 1 ≤ t ∧ t < 2 ^ 36 := by
    intro t ht
    obtain ⟨p, hp, rfl⟩ := List.mem_map.mp ht
    exact hbound p hp
  obtain ⟨hvp, hvb⟩ := runVals_from_zero (calls.map Prod.fst) hts hbt
    (by simpa using hlen)
  constructor
  · rw [runIds_eq_map]
    refine pairwise_zipWith _ _ hvp ?_
    intro x y a b hx hy hR
    simp only [Bool.false_eq_true, if_false]
    apply lex_id_mk
    rw [Nat.mod_eq_of_lt (hvb x hx), Nat.mod_eq_of_lt (hvb y hy)]
    exact hR
  · rw [runIds_eq_map]
    refine pairwise_zipWith _ _ hvp ?_
    intro x y a b hx hy hR
    simp only [eq_self_iff_true, if_true]
    apply lex_id_mk
    rw [inv48_mod (hvb x hx), inv48_mod (hvb y hy)]
    have hx48 := hvb x hx
    have hy48 := hvb y hy
    have h48 : (2 : Nat) ^ 48 = 281474976710656 := by norm_num
    rw [h48] at hx48 hy48 ⊢
    omega

/-- Witness for the amended C4: three calls, two in the same millisecond
tick, with deliberately disordered random suffixes. -/
theorem C4_monotonic_ids_witness :
    (runIds "msg".toList false ⟨0, 0⟩
        [(5, "ZZ".toList), (5, "aa".toList), (7, "00".toList)]).Pairwise
      (fun a b => List.Lex (· < ·) a b) ∧
    (runIds "msg".toList true ⟨0, 0⟩
        [(5, "ZZ".toList), (5, "aa".toList), (7, "00".toList)]).Pairwise
      (fun a b => List.Lex (· < ·) b a) :=
  C4_monotonic_ids_amended "msg".toList _ (by decide) (by decide) (by decide)

end Agent
